import Mathlib

/-
Verification of the sozluk dictionary-engine core (src/dictionary.rs,
src/matcher.rs, src/lib.rs) through a shallow embedding in Lean.

Conventions of the embedding:
* a byte is a `Nat` (with range facts stated where they matter);
* a Rust `String` / `SmartString` is represented by its UTF-8 byte list;
* a decoded text (list of unicode scalar values) is a `List Nat`;
* a Rust panic (an `unwrap` on `None`/`Err`, an out-of-bounds index, a
  `split_at` past the end) is an explicit `crash` value;
* machine integers are `Nat`/`Int` with explicit bounds where overflow or
  conversion failure matters;
* IEEE-754 double arithmetic is modelled exactly over `ℚ` by the rounding
  function `fl` (round to nearest, ties to even, 53-bit significand; the
  values arising here are far from overflow and subnormal range).
-/

namespace Sozluk

/-- One record of the binary index: the headword (as its UTF-8 bytes) and
the byte range of its definition inside the content (.dict) file.
Mirrors `struct Index` in src/dictionary.rs. -/
structure Index where
  word : List Nat
  offset : Nat
  size : Nat
deriving DecidableEq, Repr

/-- Decoder for UTF-8 byte sequences into unicode scalar values, mirroring
the validation performed by Rust `String::from_utf8` (rejects overlong
encodings, surrogates and code points above 0x10FFFF).  `none` models
`Err(FromUtf8Error)`. -/
def utf8Decode? : List Nat → Option (List Nat)
  | [] => some []
  | b :: rest =>
    if b < 0x80 then
      (utf8Decode? rest).map (fun cs => b :: cs)
    else if b < 0xC2 then
      none
    else if b < 0xE0 then
      match rest with
      | b1 :: r =>
        if 0x80 ≤ b1 && b1 < 0xC0 then
          (utf8Decode? r).map (fun cs => ((b - 0xC0) * 64 + (b1 - 0x80)) :: cs)
        else none
      | _ => none
    else if b < 0xF0 then
      match rest with
      | b1 :: b2 :: r =>
        let lo1 := if b = 0xE0 then 0xA0 else 0x80
        let hi1 := if b = 0xED then 0xA0 else 0xC0
        if lo1 ≤ b1 && b1 < hi1 && 0x80 ≤ b2 && b2 < 0xC0 then
          (utf8Decode? r).map
            (fun cs => ((b - 0xE0) * 4096 + (b1 - 0x80) * 64 + (b2 - 0x80)) :: cs)
        else none
      | _ => none
    else if b < 0xF5 then
      match rest with
      | b1 :: b2 :: b3 :: r =>
        let lo1 := if b = 0xF0 then 0x90 else 0x80
        let hi1 := if b = 0xF4 then 0x90 else 0xC0
        if lo1 ≤ b1 && b1 < hi1 && 0x80 ≤ b2 && b2 < 0xC0 && 0x80 ≤ b3 && b3 < 0xC0 then
          (utf8Decode? r).map
            (fun cs =>
              ((b - 0xF0) * 262144 + (b1 - 0x80) * 4096 + (b2 - 0x80) * 64 + (b3 - 0x80)) :: cs)
        else none
      | _ => none
    else none

/-- Result of `Dictionary::parse_word` (src/dictionary.rs:294-309):
`eof` is `Ok(None)` (first `iter.next()` returned `None`), `crash` is the
panic of `iter.next().unwrap()` when the input ends before a 0x00
terminator, `utf8Err` is `Err(FromUtf8Error)` (the iterator already
consumed up to and including the terminator), and `ok` carries the word
bytes and the not-yet-consumed remainder. -/
inductive WordRes where
  | eof
  | crash
  | utf8Err (rest : List Nat)
  | ok (word : List Nat) (rest : List Nat)
deriving DecidableEq, Repr

/-- The `while next_byte != 0` loop of `parse_word`: `buf` is the
accumulated word bytes, the list argument is the input whose head is the
byte just read (`next_byte`). -/
def parseWordGo (buf : List Nat) : List Nat → WordRes
  | [] => .crash
  | b :: rest =>
    if b = 0 then
      match utf8Decode? buf with
      | some _ => .ok buf rest
      | none => .utf8Err rest
    else parseWordGo (buf ++ [b]) rest

/-- `Dictionary::parse_word`: reads bytes until a 0x00 terminator and
validates them as UTF-8. -/
def parse_word : List Nat → WordRes
  | [] => .eof
  | b :: rest => parseWordGo [] (b :: rest)

/-- `Dictionary::parse_u32` (src/dictionary.rs:283-292): takes up to four
bytes off the iterator and reads them as a big-endian u32; `none` models
the `UnexpectedEof` error of `read_u32` when fewer than four bytes remain
(in that case `take(4)` has consumed the whole remainder, so the caller
continues with an exhausted iterator). -/
def parse_u32 : List Nat → Option (Nat × List Nat)
  | b0 :: b1 :: b2 :: b3 :: rest => some (((b0 * 256 + b1) * 256 + b2) * 256 + b3, rest)
  | _ => none

/-- Result of running the `loop` of `Dictionary::parse_index`:
`out` marks fuel exhaustion of the step-indexed model (shown unreachable
for sufficient fuel), `crash` a Rust panic inside `parse_word`, `ok` the
record list produced at `break`. -/
inductive PRes where
  | out
  | crash
  | ok (records : List Index)
deriving DecidableEq, Repr

/-- Step-indexed model of the `loop` in `Dictionary::parse_index`
(src/dictionary.rs:311-345).  Each iteration parses a word; `Ok(None)`
breaks, a UTF-8 error `continue`s (the terminator already consumed), and
each of the two `parse_u32` failures `continue`s with the iterator
exhausted.  A successful iteration pushes the record. -/
def parseIndexFuel : Nat → List Nat → PRes
  | 0, _ => .out
  | fuel + 1, input =>
    match parse_word input with
    | .eof => .ok []
    | .crash => .crash
    | .utf8Err rest => parseIndexFuel fuel rest
    | .ok w rest =>
      match parse_u32 rest with
      | none => parseIndexFuel fuel []
      | some (offset, rest2) =>
        match parse_u32 rest2 with
        | none => parseIndexFuel fuel []
        | some (size, rest3) =>
          match parseIndexFuel fuel rest3 with
          | .ok records => .ok (⟨w, offset, size⟩ :: records)
          | r => r

/-- `Dictionary::parse_index` run with enough fuel for the whole input
(the fuel-sufficiency lemmas below show `input.length + 1` steps always
suffice, so this is the exact behaviour of the unbounded Rust `loop`). -/
def parse_index (input : List Nat) : PRes :=
  parseIndexFuel (input.length + 1) input

/-- Big-endian serialization of a u32, as in the index wire format (§6). -/
def be32 (n : Nat) : List Nat :=
  [n / 16777216 % 256, n / 65536 % 256, n / 256 % 256, n % 256]

/-- Serialization of index records per the wire format of §6 of the spec:
repeating records of word-bytes, 0x00, offset:u32-BE, size:u32-BE. -/
def serializeIdx (rs : List Index) : List Nat :=
  (rs.map (fun r => r.word ++ [0] ++ be32 r.offset ++ be32 r.size)).flatten

/-- A well-formed index record: the headword is valid UTF-8 with no
interior NUL byte (otherwise it has no serialization in the wire format),
and offset and size fit in a u32. -/
def WFIdx (r : Index) : Prop :=
  (utf8Decode? r.word).isSome ∧ 0 ∉ r.word ∧ r.offset < 4294967296 ∧ r.size < 4294967296

instance (r : Index) : Decidable (WFIdx r) := by
  unfold WFIdx; infer_instance

/-! Progress facts about the per-field index readers: every non-exiting
outcome of `parse_word` strictly consumes input, and a successful
`parse_u32` consumes exactly four bytes. -/

theorem parseWordGo_ne_eof (input : List Nat) : ∀ buf, parseWordGo buf input ≠ .eof := by
  induction input with
  | nil => intro buf; simp [parseWordGo]
  | cons b rest ih =>
    intro buf
    simp only [parseWordGo]
    split
    · cases h : utf8Decode? buf <;> simp
    · exact ih _

theorem parseWordGo_utf8Err_len (input : List Nat) :
    ∀ buf rest, parseWordGo buf input = .utf8Err rest → rest.length < input.length := by
  induction input with
  | nil => intro buf rest h; simp [parseWordGo] at h
  | cons b t ih =>
    intro buf rest h
    simp only [parseWordGo] at h
    split at h
    · cases hu : utf8Decode? buf <;> simp [hu] at h
      subst h; simp
    · have := ih _ _ h
      simpa using Nat.lt_succ_of_lt this

theorem parseWordGo_ok_len (input : List Nat) :
    ∀ buf w rest, parseWordGo buf input = .ok w rest → rest.length < input.length := by
  induction input with
  | nil => intro buf w rest h; simp [parseWordGo] at h
  | cons b t ih =>
    intro buf w rest h
    simp only [parseWordGo] at h
    split at h
    · cases hu : utf8Decode? buf <;> simp [hu] at h
      obtain ⟨_, h2⟩ := h; subst h2; simp
    · have := ih _ _ _ h
      simpa using Nat.lt_succ_of_lt this

theorem parse_word_eof_iff (input : List Nat) : parse_word input = .eof ↔ input = [] := by
  cases input with
  | nil => simp [parse_word]
  | cons b rest =>
    simp only [parse_word]
    constructor
    · intro h; exact absurd h (parseWordGo_ne_eof _ _)
    · intro h; cases h

theorem parse_word_utf8Err_len {input rest : List Nat}
    (h : parse_word input = .utf8Err rest) : rest.length < input.length := by
  cases input with
  | nil => simp [parse_word] at h
  | cons b t => exact parseWordGo_utf8Err_len _ _ _ h

theorem parse_word_ok_len {input w rest : List Nat}
    (h : parse_word input = .ok w rest) : rest.length < input.length := by
  cases input with
  | nil => simp [parse_word] at h
  | cons b t => exact parseWordGo_ok_len _ _ _ _ h

theorem parse_u32_len {input rest : List Nat} {v : Nat}
    (h : parse_u32 input = some (v, rest)) : rest.length + 4 = input.length := by
  match input, h with
  | b0 :: b1 :: b2 :: b3 :: r, h =>
    simp only [parse_u32, Option.some.injEq, Prod.mk.injEq] at h
    obtain ⟨-, h2⟩ := h; subst h2; simp

/-- Fuel irrelevance: any two fuel values exceeding the input length give
the same result, so `parse_index` is the unique fixed behaviour of the
Rust `loop`. -/
theorem parseIndexFuel_eq : ∀ f1 f2 (input : List Nat), input.length < f1 →
    input.length < f2 → parseIndexFuel f1 input = parseIndexFuel f2 input := by
  intro f1
  induction f1 with
  | zero => intro f2 input h1 h2; omega
  | succ a ih =>
    intro f2 input h1 h2
    cases f2 with
    | zero => omega
    | succ b =>
      simp only [parseIndexFuel]
      cases hw : parse_word input with
      | eof => rfl
      | crash => rfl
      | utf8Err rest =>
        have hr := parse_word_utf8Err_len hw
        dsimp only
        exact ih b rest (by omega) (by omega)
      | ok w rest =>
        have hne : input ≠ [] := by
          intro hnil; rw [hnil] at hw; simp [parse_word] at hw
        have hlen : 1 ≤ input.length := by
          cases input with
          | nil => exact absurd rfl hne
          | cons x xs => simp
        have hr := parse_word_ok_len hw
        dsimp only
        cases h32 : parse_u32 rest with
        | none =>
          dsimp only
          exact ih b [] (by simp; omega) (by simp; omega)
        | some p =>
          obtain ⟨offset, rest2⟩ := p
          have h32l := parse_u32_len h32
          dsimp only
          cases h32' : parse_u32 rest2 with
          | none =>
            dsimp only
            exact ih b [] (by simp; omega) (by simp; omega)
          | some p' =>
            obtain ⟨size, rest3⟩ := p'
            have h32l' := parse_u32_len h32'
            dsimp only
            rw [ih b rest3 (by omega) (by omega)]

/-! Round-trip lemmas for the wire format of §6. -/

theorem parseWordGo_append (w : List Nat) : ∀ (buf t : List Nat), 0 ∉ w →
    (utf8Decode? (buf ++ w)).isSome → parseWordGo buf (w ++ 0 :: t) = .ok (buf ++ w) t := by
  induction w with
  | nil =>
    intro buf t _ hu
    simp only [List.append_nil] at hu
    simp only [List.nil_append, parseWordGo, if_pos rfl]
    cases h : utf8Decode? buf with
    | none => rw [h] at hu; simp at hu
    | some cs => simp [List.append_nil]
  | cons x xs ih =>
    intro buf t h0 hu
    have hx : x ≠ 0 := by intro hx0; exact h0 (by simp [hx0])
    have h0' : 0 ∉ xs := fun hm => h0 (List.mem_cons_of_mem _ hm)
    simp only [List.cons_append, parseWordGo, if_neg hx]
    have := ih (buf ++ [x]) t h0' (by simpa using hu)
    simpa using this

theorem parse_word_append (w t : List Nat) (h0 : 0 ∉ w)
    (hu : (utf8Decode? w).isSome) : parse_word (w ++ 0 :: t) = .ok w t := by
  have hgo := parseWordGo_append w [] t h0 (by simpa using hu)
  cases w with
  | nil => simpa using hgo
  | cons x xs => simpa using hgo

theorem parse_u32_be32 (v : Nat) (t : List Nat) (hv : v < 4294967296) :
    parse_u32 (be32 v ++ t) = some (v, t) := by
  simp only [be32, List.cons_append, List.nil_append, parse_u32, Option.some.injEq,
    Prod.mk.injEq]
  exact ⟨by omega, trivial⟩

theorem serializeIdx_cons (r : Index) (rs : List Index) :
    serializeIdx (r :: rs) =
      r.word ++ 0 :: (be32 r.offset ++ (be32 r.size ++ serializeIdx rs)) := by
  simp [serializeIdx, List.append_assoc]

theorem parseIndexFuel_serialize (rs : List Index) : ∀ fuel, (∀ r ∈ rs, WFIdx r) →
    (serializeIdx rs).length < fuel → parseIndexFuel fuel (serializeIdx rs) = .ok rs := by
  induction rs with
  | nil =>
    intro fuel _ hf
    cases fuel with
    | zero => simp [serializeIdx] at hf
    | succ n => simp [serializeIdx, parseIndexFuel, parse_word]
  | cons r rest ih =>
    intro fuel hwf hf
    obtain ⟨hru, hr0, hro, hrs⟩ := hwf r (List.mem_cons_self _ _)
    have hwf' : ∀ x ∈ rest, WFIdx x := fun x hx => hwf x (List.mem_cons_of_mem _ hx)
    rw [serializeIdx_cons] at hf ⊢
    cases fuel with
    | zero => simp at hf
    | succ n =>
      simp only [parseIndexFuel]
      rw [parse_word_append _ _ hr0 hru]
      dsimp only
      rw [parse_u32_be32 _ _ hro]
      dsimp only
      rw [parse_u32_be32 _ _ hrs]
      dsimp only
      have hlen : (serializeIdx rest).length < n := by
        simp only [List.length_append, List.length_cons] at hf
        simp only [be32, List.length_cons, List.length_nil] at hf
        omega
      rw [ih n hwf' hlen]

/-- C1: parsing a valid serialization of well-formed records recovers
exactly the same ordered record sequence (duplicates included, since the
statement holds for arbitrary record lists). -/
theorem c1_parse_index_roundtrip (rs : List Index) (hwf : ∀ r ∈ rs, WFIdx r) :
    parse_index (serializeIdx rs) = .ok rs :=
  parseIndexFuel_serialize rs _ hwf (Nat.lt_succ_self _)

/-- Witness for C1 at the two records of the repository's own
`should_parse_index_file` test ("word1" ↦ (9,8), "word" ↦ (16,17)). -/
theorem c1_witness :
    parse_index (serializeIdx
      [⟨[119, 111, 114, 100, 49], 9, 8⟩, ⟨[119, 111, 114, 100], 16, 17⟩]) =
      .ok [⟨[119, 111, 114, 100, 49], 9, 8⟩, ⟨[119, 111, 114, 100], 16, 17⟩] :=
  c1_parse_index_roundtrip _ (by decide)

/-- C2 (code bug): on the one-byte input 0x61 — a word with no 0x00
terminator — `parse_index` panics (the `iter.next().unwrap()` inside
`parse_word`) instead of stopping cleanly; on a record missing its
trailing offset/size pair it does terminate with the records decoded so
far, as the claim states. -/
theorem c2_unterminated_word_crashes :
    parse_index [97] = PRes.crash ∧
      parse_index ([97, 0] ++ be32 7 ++ be32 9 ++ [98, 0, 1]) = PRes.ok [⟨[97], 7, 9⟩] := by
  constructor <;> rfl

/-- C3: the decode loop of `parse_index` makes progress on every
iteration: for every input, any fuel exceeding the input length is never
exhausted, so the unbounded Rust `loop` terminates on all inputs. -/
theorem c3_parse_index_terminates (fuel : Nat) (input : List Nat)
    (h : input.length < fuel) : parseIndexFuel fuel input ≠ .out := by
  induction fuel generalizing input with
  | zero => omega
  | succ a ih =>
    simp only [parseIndexFuel]
    cases hw : parse_word input with
    | eof => simp
    | crash => simp
    | utf8Err rest =>
      have hr := parse_word_utf8Err_len hw
      dsimp only
      exact ih rest (by omega)
    | ok w rest =>
      have hne : input ≠ [] := by
        intro hnil; rw [hnil] at hw; simp [parse_word] at hw
      have hlen : 1 ≤ input.length := by
        cases input with
        | nil => exact absurd rfl hne
        | cons x xs => simp
      have hr := parse_word_ok_len hw
      dsimp only
      cases h32 : parse_u32 rest with
      | none =>
        dsimp only
        exact ih [] (by simp; omega)
      | some p =>
        obtain ⟨offset, rest2⟩ := p
        have h32l := parse_u32_len h32
        dsimp only
        cases h32' : parse_u32 rest2 with
        | none =>
          dsimp only
          exact ih [] (by simp; omega)
        | some p' =>
          obtain ⟨size, rest3⟩ := p'
          have h32l' := parse_u32_len h32'
          dsimp only
          cases hrec : parseIndexFuel a rest3 with
          | out => exact absurd hrec (ih rest3 (by omega))
          | crash => simp
          | ok records => simp

/-- Witness for C3 at a concrete malformed input (truncated final record). -/
theorem c3_witness :
    parseIndexFuel 14 [97, 0, 0, 0, 0, 7, 0, 0, 0, 9, 98, 99, 0] ≠ PRes.out :=
  c3_parse_index_terminates 14 _ (by decide)

/-! §4.3 IndexCache: `Dictionary::save_cache` / `Dictionary::load_cache`
(src/dictionary.rs:169-184) persist the record list with
`bincode::{serialize, deserialize}`.  bincode 1.x's free functions use
fixed-width little-endian integer encoding: a `Vec` or `String` is a u64
length followed by its elements, a `u32` is four LE bytes, and a `String`
is re-validated as UTF-8 on deserialization. -/

/-- Little-endian serialization of a u64 (bincode fixint encoding). -/
def le64 (n : Nat) : List Nat :=
  [n % 256, n / 256 % 256, n / 65536 % 256, n / 16777216 % 256,
   n / 4294967296 % 256, n / 1099511627776 % 256,
   n / 281474976710656 % 256, n / 72057594037927936 % 256]

/-- Little-endian serialization of a u32 (bincode fixint encoding). -/
def le32 (n : Nat) : List Nat :=
  [n % 256, n / 256 % 256, n / 65536 % 256, n / 16777216 % 256]

/-- bincode encoding of one `Index` (fields in declaration order:
the word as a length-prefixed string, then offset and size as u32). -/
def encIndex (r : Index) : List Nat :=
  le64 r.word.length ++ r.word ++ le32 r.offset ++ le32 r.size

/-- `Dictionary::save_cache`: `bincode::serialize(&self.indices)`, a u64
count followed by the encoded records (writing the file is outside the
value-level model; `write` failures are ignored by the caller). -/
def save_cache (rs : List Index) : List Nat :=
  le64 rs.length ++ (rs.map encIndex).flatten

/-- Reader for a fixint LE u64; `none` models bincode's `Io`/eof error. -/
def readLe64 : List Nat → Option (Nat × List Nat)
  | b0 :: b1 :: b2 :: b3 :: b4 :: b5 :: b6 :: b7 :: rest =>
    some (b0 + 256 * (b1 + 256 * (b2 + 256 * (b3 + 256 * (b4 + 256 * (b5 + 256 * (b6 + 256 * b7)))))),
      rest)
  | _ => none

/-- Reader for a fixint LE u32. -/
def readLe32 : List Nat → Option (Nat × List Nat)
  | b0 :: b1 :: b2 :: b3 :: rest =>
    some (b0 + 256 * (b1 + 256 * (b2 + 256 * b3)), rest)
  | _ => none

/-- Reader for a bincode `String`: u64 length, that many bytes, UTF-8
validation (serde deserializes `String` via `String::from_utf8`). -/
def readStr (bs : List Nat) : Option (List Nat × List Nat) :=
  match readLe64 bs with
  | some (n, rest) =>
    if n ≤ rest.length then
      match utf8Decode? (rest.take n) with
      | some _ => some (rest.take n, rest.drop n)
      | none => none
    else none
  | none => none

/-- Reader for `count` consecutive encoded `Index` records. -/
def readIndices : Nat → List Nat → Option (List Index × List Nat)
  | 0, bs => some ([], bs)
  | count + 1, bs =>
    match readStr bs with
    | some (w, r1) =>
      match readLe32 r1 with
      | some (offset, r2) =>
        match readLe32 r2 with
        | some (size, r3) =>
          match readIndices count r3 with
          | some (rs, r4) => some (⟨w, offset, size⟩ :: rs, r4)
          | none => none
        | none => none
      | none => none
    | none => none

/-- `Dictionary::load_cache` on the bytes read from the cache file:
`bincode::deserialize::<Vec<Index>>`; any truncation, length overrun or
UTF-8 failure is an `Err` (`none`), with no partial state. -/
def load_cache (bs : List Nat) : Option (List Index) :=
  match readLe64 bs with
  | some (count, rest) =>
    match readIndices count rest with
    | some (rs, _) => some rs
    | none => none
  | none => none

/-- Records that the cache can faithfully carry: the word is valid UTF-8
(it came from a Rust `String`) whose byte length fits in u64, and offset
and size fit in u32; the list length also fits in u64. -/
def WFCache (rs : List Index) : Prop :=
  rs.length < 18446744073709551616 ∧
    ∀ r ∈ rs, (utf8Decode? r.word).isSome ∧ r.word.length < 18446744073709551616 ∧
      r.offset < 4294967296 ∧ r.size < 4294967296

instance (rs : List Index) : Decidable (WFCache rs) := by
  unfold WFCache; infer_instance

theorem readLe64_le64 (n : Nat) (t : List Nat) (hn : n < 18446744073709551616) :
    readLe64 (le64 n ++ t) = some (n, t) := by
  simp only [le64, List.cons_append, List.nil_append, readLe64, Option.some.injEq,
    Prod.mk.injEq]
  exact ⟨by omega, trivial⟩

theorem readLe32_le32 (n : Nat) (t : List Nat) (hn : n < 4294967296) :
    readLe32 (le32 n ++ t) = some (n, t) := by
  simp only [le32, List.cons_append, List.nil_append, readLe32, Option.some.injEq,
    Prod.mk.injEq]
  exact ⟨by omega, trivial⟩

theorem readStr_enc (w t : List Nat) (hu : (utf8Decode? w).isSome)
    (hl : w.length < 18446744073709551616) :
    readStr (le64 w.length ++ (w ++ t)) = some (w, t) := by
  rw [readStr, readLe64_le64 _ _ hl]
  have hle : w.length ≤ (w ++ t).length := by simp
  dsimp only
  rw [if_pos hle, List.take_left]
  cases h : utf8Decode? w with
  | none => rw [h] at hu; simp at hu
  | some cs => simp [List.drop_left]

theorem readIndices_enc (rs : List Index) : ∀ t, (∀ r ∈ rs,
      (utf8Decode? r.word).isSome ∧ r.word.length < 18446744073709551616 ∧
        r.offset < 4294967296 ∧ r.size < 4294967296) →
    readIndices rs.length ((rs.map encIndex).flatten ++ t) = some (rs, t) := by
  induction rs with
  | nil => intro t _; simp [readIndices]
  | cons r rest ih =>
    intro t hwf
    obtain ⟨hu, hwl, ho, hs⟩ := hwf r (List.mem_cons_self _ _)
    have hwf' := fun x hx => hwf x (List.mem_cons_of_mem _ hx)
    simp only [List.length_cons, List.map_cons, List.flatten_cons, readIndices]
    have harr : (encIndex r ++ (rest.map encIndex).flatten) ++ t =
        le64 r.word.length ++ (r.word ++ (le32 r.offset ++ (le32 r.size ++
          ((rest.map encIndex).flatten ++ t)))) := by
      simp [encIndex, List.append_assoc]
    rw [harr, readStr_enc _ _ hu hwl]
    dsimp only
    rw [readLe32_le32 _ _ ho]
    dsimp only
    rw [readLe32_le32 _ _ hs]
    dsimp only
    rw [ih _ hwf']

/-- C7: the index cache round-trips: loading the saved serialization of
any record sequence (the empty one included) yields that same sequence. -/
theorem c7_cache_roundtrip (rs : List Index) (hwf : WFCache rs) :
    load_cache (save_cache rs) = some rs := by
  obtain ⟨hlen, hrec⟩ := hwf
  rw [save_cache, load_cache, readLe64_le64 _ _ hlen]
  dsimp only
  have := readIndices_enc rs [] hrec
  rw [List.append_nil] at this
  rw [this]

/-- Witness for C7 at the records of the repository's own
`should_save_and_restore_index_cache` test ("a word" ↦ (246,123),
"a second word" ↦ (492,369)). -/
theorem c7_witness :
    load_cache (save_cache
      [⟨[97, 32, 119, 111, 114, 100], 246, 123⟩,
       ⟨[97, 32, 115, 101, 99, 111, 110, 100, 32, 119, 111, 114, 100], 492, 369⟩]) =
      some [⟨[97, 32, 119, 111, 114, 100], 246, 123⟩,
       ⟨[97, 32, 115, 101, 99, 111, 110, 100, 32, 119, 111, 114, 100], 492, 369⟩] :=
  c7_cache_roundtrip _ (by decide)

/-! §4.5 Matcher: `LevenshteinMatcher::compare` (src/matcher.rs:33-42)
computes `normalized_levenshtein` (crate strsim) and compares it against
`0.89 - 0.05 * level` in IEEE-754 binary64 arithmetic.  The arithmetic is
modelled exactly over `ℚ`: every f64 value is a rational, and each
operation is the exact rational operation followed by `fl`, rounding to
nearest with ties to even at 53 significant bits.  All values arising
here lie far inside the normal range, so neither overflow nor subnormal
rounding occurs. -/

/-- Fuel-based binary logarithm, `⌊log₂ n⌋` for `n ≥ 1` once the fuel is
at least `n` (structurally recursive so that it evaluates inside the
kernel). -/
def natLog2Go : Nat → Nat → Nat
  | 0, _ => 0
  | fuel + 1, n => if 2 ≤ n then natLog2Go fuel (n / 2) + 1 else 0

/-- `⌊log₂ n⌋` for `n ≥ 1`. -/
def natLog2 (n : Nat) : Nat := natLog2Go n n

/-- Round the nonnegative fraction `num/den` (`den ≠ 0`) to the nearest
natural number, ties to even: `f = ⌊num/den⌋` and the fractional part
`r = num/den - f` compares to 1/2 exactly as `2·(num - f·den)` compares
to `den`. -/
def rheND (num den : Nat) : Nat :=
  let f := num / den
  let r2 := 2 * (num - f * den)
  if r2 < den then f
  else if den < r2 then f + 1
  else if f % 2 = 0 then f else f + 1

/-- Decide `num/den < 2^e` over the integers (`den ≠ 0`). -/
def lt2pow (num den : Nat) (e : ℤ) : Bool :=
  if 0 ≤ e then num < den * 2 ^ e.toNat else num * 2 ^ (-e).toNat < den

/-- `⌊log₂ (num/den)⌋` for `num, den ≥ 1`: first guess from the integer
logarithms (off by at most one), then corrected by direct comparison with
the neighbouring powers of two. -/
def log2ND (num den : Nat) : ℤ :=
  let e0 : ℤ := (natLog2 num : ℤ) - (natLog2 den : ℤ)
  if lt2pow num den e0 then e0 - 1
  else if ¬ lt2pow num den (e0 + 1) then e0 + 1
  else e0

/-- The binary64 value nearest to `n / d` (for `d ≠ 0`): round to
nearest, ties to even, 53 significant bits — the exact result of an
IEEE-754 double operation whose real value is `n / d`.  The significand
is rounded on the grid of multiples of `2^(e-52)` where
`e = ⌊log₂ |n/d|⌋`, which is exactly the representable grid of the
value's binade (the exponent is left unbounded: every value arising in
this development is far from the overflow and subnormal ranges). -/
def flND (n d : ℤ) : ℚ :=
  if n = 0 ∨ d = 0 then 0
  else
    let N := n.natAbs
    let D := d.natAbs
    let e : ℤ := log2ND N D
    let sign : ℤ := if (0 ≤ n ∧ 0 ≤ d) ∨ (n < 0 ∧ d < 0) then 1 else -1
    if 0 ≤ 52 - e then
      mkRat (sign * rheND (N * 2 ^ (52 - e).toNat) D) (2 ^ (52 - e).toNat)
    else
      mkRat (sign * (rheND N (D * 2 ^ (e - 52).toNat) * 2 ^ (e - 52).toNat)) 1

/-- binary64 rounding of a rational value. -/
def fl (q : ℚ) : ℚ := flND q.num q.den

/-- binary64 subtraction: one rounding of the exact difference. -/
def fsub (a b : ℚ) : ℚ :=
  flND (a.num * (b.den : ℤ) - b.num * (a.den : ℤ)) ((a.den : ℤ) * (b.den : ℤ))

/-- binary64 multiplication: one rounding of the exact product. -/
def fmul (a b : ℚ) : ℚ := flND (a.num * b.num) ((a.den : ℤ) * (b.den : ℤ))

/-- binary64 division: one rounding of the exact quotient. -/
def fdiv (a b : ℚ) : ℚ := flND (a.num * (b.den : ℤ)) ((a.den : ℤ) * b.num)

/-- The f64 literal `0.89` (nearest double to 89/100). -/
def c089 : ℚ := flND 89 100

/-- The f64 literal `0.05` (nearest double to 5/100). -/
def c005 : ℚ := flND 5 100

/-- Inner loop of strsim's `generic_levenshtein` for one element of `a`:
walks `b` and the DP cache together (`result` and `distance_b` as in the
Rust body), returning the final `result` and the rewritten cache. -/
def levRow (aElem : Nat) : List Nat → List Nat → Nat → Nat → Nat × List Nat
  | bElem :: bs, cj :: cs, result, distB =>
    let cost : Nat := if aElem = bElem then 0 else 1
    let distA := distB + cost
    let result2 := min (result + 1) (min distA (cj + 1))
    let p := levRow aElem bs cs result2 cj
    (p.1, result2 :: p.2)
  | _, _, result, _ => (result, [])

/-- Outer loop of `generic_levenshtein`: one row per element of `a`,
`i` the enumeration index, threading the cache. -/
def levOuter : List Nat → List Nat → List Nat → Nat → Nat → Nat
  | [], _, _, _, result => result
  | aElem :: arest, b, cache, i, _ =>
    let p := levRow aElem b cache (i + 1) i
    levOuter arest b p.2 (i + 1) p.1

/-- strsim `levenshtein` over unicode scalar sequences (row-based dynamic
programming; an empty `a` short-circuits to `b`'s length). -/
def levenshtein (a b : List Nat) : Nat :=
  match a with
  | [] => b.length
  | _ :: _ => levOuter a b (List.range' 1 b.length) 0 0

/-- strsim `normalized_levenshtein`: 1 for two empty strings, otherwise
`1.0 - levenshtein(a,b) / max(|a|,|b|)` in binary64 (the two integer
operands are below 2^53 in every reachable use, so their conversions to
f64 are exact). -/
def normalized_levenshtein (a b : List Nat) : ℚ :=
  if a = [] ∧ b = [] then 1
  else fsub 1 (fdiv (levenshtein a b : ℚ) ((max a.length b.length : ℕ) : ℚ))

/-- The f64 threshold `0.89 - 0.05 * f64::from(level as u32)` computed by
`compare` (exact for level ≤ 127, the non-panicking range). -/
def fThreshold (level : Nat) : ℚ := fsub c089 (fmul c005 (level : ℚ))

/-- `LevenshteinMatcher::compare`: the two-stage filter.  `none` models
the panic of `i8::try_from(..).unwrap()` when either character count or
the level exceeds i8::MAX = 127. -/
def LevenshteinMatcher.compare (level : Nat) (first second : List Nat) : Option Bool :=
  if 127 < first.length ∨ 127 < second.length then none
  else if 127 < level then none
  else if (level : ℤ) < (first.length : ℤ) - (second.length : ℤ) ∨
      (first.length : ℤ) - (second.length : ℤ) < -(level : ℤ) then some false
  else some (decide (normalized_levenshtein first second > fThreshold level))

/-- Exact (real-arithmetic) normalized similarity, as the spec's glossary
defines it: 1 minus the edit distance divided by the longer length. -/
def specSimilarity (a b : List Nat) : ℚ :=
  if a = [] ∧ b = [] then 1
  else 1 - (levenshtein a b : ℚ) / ((max a.length b.length : ℕ) : ℚ)

/-- Exact threshold 0.89 − 0.05·level of the spec, in real arithmetic. -/
def specThreshold (level : Nat) : ℚ := 89 / 100 - 5 / 100 * (level : ℚ)

set_option maxRecDepth 40000

/-- The f64 threshold is antitone from one level to the next across the
whole non-panicking range (checked pointwise over the 127 pairs). -/
theorem fThreshold_step : ∀ l : Nat, l < 127 → fThreshold (l + 1) ≤ fThreshold l := by
  decide

/-- The f64 threshold is antitone on the non-panicking range of levels. -/
theorem fThreshold_mono {l l2 : Nat} (h : l ≤ l2) (h2 : l2 ≤ 127) :
    fThreshold l2 ≤ fThreshold l := by
  induction l2 with
  | zero =>
    cases Nat.le_zero.mp h
    exact le_refl _
  | succ k ih =>
    rcases Nat.lt_or_ge l (k + 1) with hlt | hge
    · exact le_trans (fThreshold_step k (by omega)) (ih (by omega) (by omega))
    · have : l = k + 1 := by omega
      subst this
      exact le_refl _

/-- C10: `compare` returns a boolean exactly when both character counts
and the level fit in an `i8`; any count or level above 127 makes the
`i8::try_from(..).unwrap()` in the pruning stage panic. -/
theorem c10_compare_total_iff (level : Nat) (first second : List Nat) :
    (LevenshteinMatcher.compare level first second).isSome = true ↔
      first.length ≤ 127 ∧ second.length ≤ 127 ∧ level ≤ 127 := by
  unfold LevenshteinMatcher.compare
  by_cases hlen : 127 < first.length ∨ 127 < second.length
  · rw [if_pos hlen]
    simp only [Option.isSome_none, Bool.false_eq_true, false_iff]
    omega
  · rw [if_neg hlen]
    by_cases hl : 127 < level
    · rw [if_pos hl]
      simp only [Option.isSome_none, Bool.false_eq_true, false_iff]
      omega
    · rw [if_neg hl]
      split <;> simp only [Option.isSome_some, true_iff] <;> omega

/-- C4 counterexample input: two 25-character words at edit distance 24
("a" followed by 24 "b" resp. 24 "c"). -/
def c4First : List Nat := 97 :: List.replicate 24 98

/-- The second word of the C4 counterexample. -/
def c4Second : List Nat := 97 :: List.replicate 24 99

/-- C4 fails as stated: at level 17 on the 25-character pair at distance
24, `compare` returns `true` although the exact normalized similarity
1 − 24/25 = 1/25 does NOT exceed the exact threshold 0.89 − 0.05·17 =
1/25 — the f64 evaluations of the two equal reals differ by one ulp. -/
theorem c4_counterexample :
    LevenshteinMatcher.compare 17 c4First c4Second = some true ∧
      ¬ specSimilarity c4First c4Second > specThreshold 17 := by
  constructor
  · decide
  · have hlev : levenshtein c4First c4Second = 24 := by decide
    have hlen1 : c4First.length = 25 := by decide
    have hlen2 : c4Second.length = 25 := by decide
    have hne : ¬(c4First = [] ∧ c4Second = []) := by decide
    rw [specSimilarity, if_neg hne, hlev, hlen1, hlen2, specThreshold]
    norm_num

/-- C4 (amended): for words of at most 127 characters and level at most
127 (beyond which `compare` panics, see C10), `compare` returns `false`
immediately when the character-count difference exceeds `level` in
absolute value, and otherwise returns `true` iff the IEEE-754 binary64
evaluation of the normalized similarity exceeds the binary64 evaluation
of 0.89 − 0.05·level (which can differ from the exact rational
comparison at boundary pairs). -/
theorem c4_amended (level : Nat) (first second : List Nat)
    (h1 : first.length ≤ 127) (h2 : second.length ≤ 127) (hl : level ≤ 127) :
    (level < ((first.length : ℤ) - (second.length : ℤ)).natAbs →
        LevenshteinMatcher.compare level first second = some false) ∧
      (((first.length : ℤ) - (second.length : ℤ)).natAbs ≤ level →
        (LevenshteinMatcher.compare level first second = some true ↔
          normalized_levenshtein first second > fThreshold level)) := by
  unfold LevenshteinMatcher.compare
  rw [if_neg (by omega), if_neg (by omega)]
  constructor
  · intro hw
    rw [if_pos (by omega)]
  · intro hw
    rw [if_neg (by omega)]
    simp only [Option.some.injEq, decide_eq_true_eq]

/-- Witness for C4 (amended) at level 2 on "armut" / "erm" (the word
pair of the spec's §8 example). -/
theorem c4_witness :
    LevenshteinMatcher.compare 2 [97, 114, 109, 117, 116] [101, 114, 109] = some true ↔
      normalized_levenshtein [97, 114, 109, 117, 116] [101, 114, 109] > fThreshold 2 :=
  (c4_amended 2 [97, 114, 109, 117, 116] [101, 114, 109]
    (by decide) (by decide) (by decide)).2 (by decide)

/-- C5 fails as stated: `compare` at level 0 accepts the pair ("a","a"),
but raising the level to 128 does not keep it accepted — it panics on
`i8::try_from(128).unwrap()` instead of returning `true`. -/
theorem c5_counterexample :
    LevenshteinMatcher.compare 0 [97] [97] = some true ∧
      LevenshteinMatcher.compare 128 [97] [97] ≠ some true := by
  constructor
  · decide
  · decide

/-- C5 (amended): monotonic recall holds on the non-panicking range: for
a fixed word pair, if `compare` accepts at `level` then it accepts at
every larger `level2 ≤ 127` (the length window only widens, and the f64
threshold is antitone). -/
theorem c5_amended (level level2 : Nat) (first second : List Nat)
    (h12 : level < level2) (h127 : level2 ≤ 127)
    (ht : LevenshteinMatcher.compare level first second = some true) :
    LevenshteinMatcher.compare level2 first second = some true := by
  unfold LevenshteinMatcher.compare at ht ⊢
  by_cases hlen : 127 < first.length ∨ 127 < second.length
  · rw [if_pos hlen] at ht
    exact absurd ht (by simp)
  · rw [if_neg hlen] at ht ⊢
    by_cases hl : 127 < level
    · rw [if_pos hl] at ht
      exact absurd ht (by simp)
    · rw [if_neg hl] at ht
      rw [if_neg (show ¬ 127 < level2 by omega)]
      by_cases hd : (level : ℤ) < (first.length : ℤ) - (second.length : ℤ) ∨
          (first.length : ℤ) - (second.length : ℤ) < -(level : ℤ)
      · rw [if_pos hd] at ht
        exact absurd ht (by simp)
      · rw [if_neg hd] at ht
        rw [if_neg (show ¬ ((level2 : ℤ) < (first.length : ℤ) - (second.length : ℤ) ∨
            (first.length : ℤ) - (second.length : ℤ) < -(level2 : ℤ)) by omega)]
        simp only [Option.some.injEq, decide_eq_true_eq] at ht ⊢
        exact lt_of_le_of_lt (fThreshold_mono (le_of_lt h12) h127) ht

/-- Witness for C5 (amended): from acceptance at level 0 on ("a","a") to
acceptance at level 1. -/
theorem c5_witness : LevenshteinMatcher.compare 1 [97] [97] = some true :=
  c5_amended 0 1 [97] [97] (by decide) (by decide) (by decide)

/-! §4.1/§4.4 content-format tags and the definition resolver. -/

/-- `enum SameTypeSequence` (src/dictionary.rs:59-70); `noneTag` is the
source's `None` variant (no dictionary-wide format declared). -/
inductive SameTypeSequence where
  | meaning
  | locale
  | xdfx
  | mediaWiki
  | html
  | wordNet
  | resource
  | picture
  | noneTag
deriving DecidableEq, Repr

/-- `Definition::match_sametype_sequence` (src/dictionary.rs:386-404):
single-letter codes; anything else falls back to `Meaning` with a logged
warning. -/
def match_sametype_sequence (buffer : String) : SameTypeSequence :=
  if buffer = "m" then .meaning
  else if buffer = "h" then .html
  else if buffer = "l" then .locale
  else if buffer = "w" then .mediaWiki
  else if buffer = "p" then .picture
  else if buffer = "n" then .wordNet
  else if buffer = "r" then .resource
  else if buffer = "x" then .xdfx
  else .meaning

/-- `String::from_utf8_lossy` on a single byte: the character itself for
ASCII, U+FFFD otherwise. -/
def lossy1 (b : Nat) : String :=
  if b < 128 then String.mk [Char.ofNat b] else "�"

/-- Rust `char::is_whitespace`: the Unicode White_Space code points. -/
def isRustWhitespace (c : Nat) : Bool :=
  c == 0x09 || c == 0x0A || c == 0x0B || c == 0x0C || c == 0x0D || c == 0x20 ||
    c == 0x85 || c == 0xA0 || c == 0x1680 ||
    (decide (0x2000 ≤ c) && decide (c ≤ 0x200A)) ||
    c == 0x2028 || c == 0x2029 || c == 0x202F || c == 0x205F || c == 0x3000

/-- Rust `str::trim` on the decoded scalar sequence: strip whitespace
from both ends. -/
def rustTrim (cs : List Nat) : List Nat :=
  ((cs.dropWhile isRustWhitespace).reverse.dropWhile isRustWhitespace).reverse

/-- `struct Definition`: headword (UTF-8 bytes, as in `Index`), decoded
definition text (unicode scalars) and its format tag. -/
structure Definition where
  word : List Nat
  definition : List Nat
  definition_type : SameTypeSequence
deriving DecidableEq, Repr

/-- `Definition::new_from_utf8` (src/dictionary.rs:355-378).  Under tag
`None` the first buffer byte is consumed as a per-entry format code
(`buffer.split_at(1)` panics — `none` — on an empty buffer, and the code
byte is decoded with `from_utf8_lossy`); the remaining buffer goes
through `String::from_utf8(..).unwrap()`, panicking on invalid UTF-8;
HTML-tagged text is trimmed. -/
def new_from_utf8 (word : List Nat) (buffer : List Nat)
    (word_type : SameTypeSequence) : Option Definition :=
  match word_type with
  | .noneTag =>
    match buffer with
    | [] => none
    | c :: rest =>
      match utf8Decode? rest with
      | none => none
      | some cs =>
        let t := match_sametype_sequence (lossy1 c)
        some ⟨word, if t = .html then rustTrim cs else cs, t⟩
  | t =>
    match utf8Decode? buffer with
    | none => none
    | some cs => some ⟨word, if t = .html then rustTrim cs else cs, t⟩

/-- Failure modes of `read_definition`: a returned `io::Error` versus a
Rust panic. -/
inductive RdError where
  | ioError
  | crash
deriving DecidableEq, Repr

/-- `Dictionary::read_definition` (src/dictionary.rs:268-281) on a
content file modelled by its byte list (`none` standing for a .dict file
that cannot be opened, the one failure that IS returned).  It seeks to
`offset` (seek failures are discarded by `.ok()` and cannot arise in the
in-memory model), fills a `size`-byte buffer with
`read_exact(..).unwrap()` — a panic when fewer than `size` bytes remain
past `offset` — and builds the `Definition` (whose own `unwrap` panics
propagate). -/
def read_definition (dictContent : Option (List Nat)) (index : Index)
    (sametype : SameTypeSequence) : Except RdError Definition :=
  match dictContent with
  | none => .error .ioError
  | some content =>
    if index.size ≤ content.length - index.offset then
      match new_from_utf8 index.word ((content.drop index.offset).take index.size) sametype with
      | some d => .ok d
      | none => .error .crash
    else .error .crash

/-- C8 (code bug): a short read is a panic, not a returned failure —
`read_exact(..).unwrap()` aborts when `(offset, size)` reaches past the
end of the content file (here 3 bytes against size 10); invalid UTF-8
content likewise panics in `String::from_utf8(..).unwrap()` instead of
propagating; only a file-open failure is surfaced as a returned error. -/
theorem c8_read_definition_panics :
    read_definition (some [97, 98, 99]) ⟨[119], 0, 10⟩ .meaning = .error .crash ∧
      read_definition (some [255]) ⟨[119], 0, 1⟩ .meaning = .error .crash ∧
      read_definition none ⟨[119], 0, 1⟩ .meaning = .error .ioError := by
  exact ⟨rfl, rfl, rfl⟩

/-! §4.6 SearchOrchestrator: `Dictionary::fuzzy_search_indices`
(src/dictionary.rs:237-254) and `search_in_dicts` (src/lib.rs:34-72). -/

/-- A loaded dictionary: the search- and sampling-relevant fields of
`struct Dictionary` (the four file paths are path plumbing outside the
value model). -/
structure Dictionary where
  indices : List Index
  bookname : List Char
  wordcount : Nat
  sametype_sequence : SameTypeSequence
deriving DecidableEq, Repr

/-- `Dictionary::fuzzy_search_indices`: filter the records through the
comparator closure (rayon's indexed `par_iter().filter().collect()`
preserves index order), `None` when nothing matched. -/
def Dictionary.fuzzy_search_indices (d : Dictionary)
    (comparator : List Nat → List Nat → Bool) (word : List Nat) : Option (List Index) :=
  let results := d.indices.filter (fun x => comparator word x.word)
  if results.isEmpty then none else some results

/-- `struct IndexDictPair`: one search group — a dictionary and the
matching records found in it. -/
structure IndexDictPair where
  index : List Index
  dict : Dictionary

/-- `search_in_dicts`: walk the dictionaries in the caller's order,
pushing a group for each dictionary whose search returned `Some` (the
timing event written per dictionary is an I/O side effect that does not
influence the returned value). -/
def search_in_dicts (dicts : List Dictionary)
    (comparator : List Nat → List Nat → Bool) (word : List Nat) : List IndexDictPair :=
  match dicts with
  | [] => []
  | d :: rest =>
    match d.fuzzy_search_indices comparator word with
    | some idx => ⟨idx, d⟩ :: search_in_dicts rest comparator word
    | none => search_in_dicts rest comparator word

/-- Case form of `fuzzy_search_indices`. -/
theorem fuzzy_search_eq (d : Dictionary) (comparator : List Nat → List Nat → Bool)
    (word : List Nat) :
    d.fuzzy_search_indices comparator word =
      (if d.indices.filter (fun x => comparator word x.word) = [] then none
       else some (d.indices.filter (fun x => comparator word x.word))) := by
  unfold Dictionary.fuzzy_search_indices
  by_cases h : d.indices.filter (fun x => comparator word x.word) = []
  · simp [h]
  · simp [h, List.isEmpty_iff]

/-- C6: the search output has one group per dictionary with at least one
match, in the caller's dictionary order (dictionaries with zero matches
are absent rather than empty), and each group holds exactly the records
whose words satisfy the matcher, in index order (a permutation of
itself). -/
theorem c6_search_groups (dicts : List Dictionary)
    (comparator : List Nat → List Nat → Bool) (word : List Nat) :
    ((search_in_dicts dicts comparator word).map (fun g => g.dict) =
        dicts.filter (fun d => d.indices.any (fun x => comparator word x.word))) ∧
      ∀ g ∈ search_in_dicts dicts comparator word,
        g.index = g.dict.indices.filter (fun x => comparator word x.word) ∧
          g.index ≠ [] := by
  induction dicts with
  | nil =>
    refine ⟨rfl, ?_⟩
    intro g hg
    simp [search_in_dicts] at hg
  | cons d rest ih =>
    obtain ⟨ih1, ih2⟩ := ih
    have hsd : search_in_dicts (d :: rest) comparator word =
        (match d.fuzzy_search_indices comparator word with
         | some idx => ⟨idx, d⟩ :: search_in_dicts rest comparator word
         | none => search_in_dicts rest comparator word) := rfl
    by_cases h : d.indices.filter (fun x => comparator word x.word) = []
    · have hnone : d.fuzzy_search_indices comparator word = none := by
        rw [fuzzy_search_eq, if_pos h]
      have hany : d.indices.any (fun x => comparator word x.word) = false := by
        rw [List.any_eq_false]
        intro x hx
        simpa using List.filter_eq_nil_iff.mp h x hx
      rw [hsd, hnone]
      constructor
      · rw [List.filter_cons_of_neg (by simp [hany])]
        exact ih1
      · exact ih2
    · have hsome : d.fuzzy_search_indices comparator word =
          some (d.indices.filter (fun x => comparator word x.word)) := by
        rw [fuzzy_search_eq, if_neg h]
      have hany : d.indices.any (fun x => comparator word x.word) = true := by
        by_contra hc
        have hf : d.indices.any (fun x => comparator word x.word) = false :=
          Bool.eq_false_iff.mpr hc
        refine h (List.filter_eq_nil_iff.mpr ?_)
        intro x hx
        simpa using List.any_eq_false.mp hf x hx
      rw [hsd, hsome]
      constructor
      · simp only [List.map_cons]
        rw [List.filter_cons_of_pos (by simpa using hany), ih1]
      · intro g hg
        rcases List.mem_cons.mp hg with hgd | hgr
        · subst hgd
          exact ⟨rfl, h⟩
        · exact ih2 g hgr

/-! §4.1 MetadataParser and the load path
(`Dictionary::{parse_ifo_file, parse_field_from_ifo, load_dictionary,
select_random_word}`, src/dictionary.rs).  Text is handled as `List
Char`; the Rust `str` operations involved are re-implemented here by
structural recursion (the core library versions do not reduce inside the
kernel). -/

/-- Split a character list at every newline, keeping all (possibly
empty) parts. -/
def splitNl : List Char → List (List Char)
  | [] => [[]]
  | c :: cs =>
    if c = '\n' then [] :: splitNl cs
    else
      match splitNl cs with
      | h :: t => (c :: h) :: t
      | [] => [[c]]

/-- Rust `str::lines`: newline-separated parts, without a final empty
line for a newline-terminated (or empty) string, and with one trailing
carriage return stripped per line. -/
def rustLines (s : List Char) : List (List Char) :=
  (match (splitNl s).reverse with
    | [] :: more => more.reverse
    | parts => parts.reverse).map
    (fun (l : List Char) => if l.getLast? = some '\r' then l.dropLast else l)

/-- Rust `str::starts_with` on character lists (pattern first). -/
def listStartsWith : List Char → List Char → Bool
  | [], _ => true
  | _ :: _, [] => false
  | p :: ps, c :: cs => p == c && listStartsWith ps cs

/-- One fuel-indexed step list for Rust `str::replace` (replace every
non-overlapping occurrence, left to right); the fuel is the input
length, and the pattern is nonempty in every use (`"<field>="`). -/
def listReplaceGo (pat rep : List Char) : Nat → List Char → List Char
  | 0, s => s
  | _ + 1, [] => []
  | fuel + 1, c :: cs =>
    if pat ≠ [] && listStartsWith pat (c :: cs) then
      rep ++ listReplaceGo pat rep fuel ((c :: cs).drop pat.length)
    else c :: listReplaceGo pat rep fuel cs

/-- Rust `str::replace` on character lists. -/
def listReplace (pat rep s : List Char) : List Char :=
  listReplaceGo pat rep s.length s

/-- `Dictionary::parse_field_from_ifo` (src/dictionary.rs:256-264): the
first line starting with `field=`, with every occurrence of the pattern
removed (Rust `str::replace`). -/
def parse_field_from_ifo (buffer field : List Char) : Option (List Char) :=
  (rustLines buffer).findSome? fun line =>
    if listStartsWith (field ++ ['=']) line then
      some (listReplace (field ++ ['=']) [] line)
    else none

/-- Rust `str::parse::<u64>`: an optional leading `+`, then one or more
ASCII digits, with the value below 2^64; anything else is a parse error
(`none`), which `parse_ifo_file` turns into a panic via `.unwrap()`. -/
def parseU64Rust (s : List Char) : Option Nat :=
  match s with
  | [] => none
  | c0 :: cs0 =>
    let ds := if c0 = '+' then cs0 else c0 :: cs0
    if ds = [] then none
    else if ds.all (fun c => c.isDigit) then
      if ds.foldl (fun a c => a * 10 + (c.toNat - 48)) 0 < 18446744073709551616 then
        some (ds.foldl (fun a c => a * 10 + (c.toNat - 48)) 0)
      else none
    else none

/-- `Dictionary::parse_ifo_file` (src/dictionary.rs:200-221) on the text
of an openable .ifo file: `sametypesequence` defaults to `None`,
`wordcount` to 0 when absent — but a present non-numeric value panics in
`n.parse().unwrap()` (`none`) — and `bookname` falls back to the .dict
path string with a console warning. -/
def parse_ifo_file (buffer : List Char) (dictPathStr : List Char) :
    Option (SameTypeSequence × Nat × List Char) :=
  match (match parse_field_from_ifo buffer "wordcount".data with
         | some n => parseU64Rust n
         | none => some 0) with
  | none => none
  | some wc =>
    some (
      (match parse_field_from_ifo buffer "sametypesequence".data with
       | some n => match_sametype_sequence (String.mk n)
       | none => .noneTag),
      wc,
      (match parse_field_from_ifo buffer "bookname".data with
       | some n => n
       | none => dictPathStr))

/-- The on-disk material `load_dictionary` consumes once the .ifo path
is resolved: the .ifo text, the .idx bytes and the .sozl cache bytes
(`none` models a file that cannot be opened or read; locating the .ifo
file in a directory, `find_ifo_in_dir`, is path plumbing outside the
value model). -/
structure DictFiles where
  ifo : Option (List Char)
  idx : Option (List Nat)
  cache : Option (List Nat)
  dictPathStr : List Char

/-- `enum DictionaryError` (IOError, PathError) plus an explicit value
for a Rust panic escaping `load_dictionary`. -/
inductive LoadError where
  | ioError
  | pathError
  | crash
deriving DecidableEq, Repr

/-- `Dictionary::load_dictionary` (src/dictionary.rs:116-144): parse the
metadata, then populate the indices from the cache when it loads, else
re-parse the .idx file (an unopenable index file fails the load with
`IOError`; a `parse_word` panic escapes; the re-save of the cache does
not affect the returned value and its failures are ignored). -/
def load_dictionary (files : DictFiles) : Except LoadError Dictionary :=
  match files.ifo with
  | none => .error .ioError
  | some ifoText =>
    match parse_ifo_file ifoText files.dictPathStr with
    | none => .error .crash
    | some (stq, wc, bn) =>
      match files.cache.bind load_cache with
      | some idx => .ok ⟨idx, bn, wc, stq⟩
      | none =>
        match files.idx with
        | none => .error .ioError
        | some idxBytes =>
          match parse_index idxBytes with
          | .ok idx => .ok ⟨idx, bn, wc, stq⟩
          | _ => .error .crash

/-- `Dictionary::select_random_word` (src/dictionary.rs:161-167) with
the random draw made explicit: `thread_rng().gen_range(0, wordcount)`
produces some `n < wordcount`, and `&self.indices[n]` panics (`none`)
when `n` is out of bounds of the actual record list. -/
def select_random_word (d : Dictionary) (n : Nat) : Option Index :=
  if h : n < d.indices.length then some (d.indices.get ⟨n, h⟩) else none

/-- The record count the metadata declares: the parsed `wordcount`
field, 0 when absent. -/
def declaredWordcount (ifoText : List Char) : Nat :=
  match parse_field_from_ifo ifoText "wordcount".data with
  | some n => (parseU64Rust n).getD 0
  | none => 0

/-- C9 counterexample input: metadata declaring wordcount=5 over an
empty index file. -/
def c9Files : DictFiles :=
  ⟨some "wordcount=5\nbookname=b\nsametypesequence=m\n".data, some [], none, "p.dict".data⟩

/-- C9 fails as stated: `load_dictionary` keeps the metadata-declared
`wordcount` and never reconciles it with `indices.len()`; on an .ifo
declaring 5 words over an empty index the load succeeds with
`wordcount = 5 ≠ 0 = indices.len()`, and the random draw 4 (which
`gen_range(0, 5)` can produce) makes `select_random_word` panic. -/
theorem c9_counterexample :
    load_dictionary c9Files = .ok ⟨[], "b".data, 5, .meaning⟩ ∧
      (5 : Nat) ≠ ([] : List Index).length ∧
      select_random_word ⟨[], "b".data, 5, .meaning⟩ 4 = none := by
  refine ⟨?_, by decide, by rfl⟩
  rfl

/-- C9 (amended): after a successful `load_dictionary` the dictionary's
`wordcount` equals the metadata-declared count (0 when the field is
absent) — not necessarily `indices.len()`; uniform sampling indexes
within bounds only when that declared count does not exceed the actual
record count. -/
theorem c9_amended (files : DictFiles) (d : Dictionary)
    (h : load_dictionary files = .ok d) :
    (∃ ifoText, files.ifo = some ifoText ∧ d.wordcount = declaredWordcount ifoText) ∧
      (d.wordcount ≤ d.indices.length →
        ∀ n, n < d.wordcount → (select_random_word d n).isSome = true) := by
  constructor
  · unfold load_dictionary at h
    cases hifo : files.ifo with
    | none =>
      simp only [hifo] at h
      exact Except.noConfusion h
    | some ifoText =>
      simp only [hifo] at h
      refine ⟨ifoText, rfl, ?_⟩
      unfold parse_ifo_file at h
      unfold declaredWordcount
      cases hwc : parse_field_from_ifo ifoText "wordcount".data with
      | none =>
        simp only [hwc] at h ⊢
        cases hcache : files.cache.bind load_cache with
        | some idx =>
          simp only [hcache, Except.ok.injEq] at h
          subst h
          rfl
        | none =>
          simp only [hcache] at h
          cases hidx : files.idx with
          | none =>
            simp only [hidx] at h
            exact Except.noConfusion h
          | some idxBytes =>
            simp only [hidx] at h
            cases hpi : parse_index idxBytes with
            | ok idx =>
              simp only [hpi, Except.ok.injEq] at h
              subst h
              rfl
            | out =>
              simp only [hpi] at h
              exact Except.noConfusion h
            | crash =>
              simp only [hpi] at h
              exact Except.noConfusion h
      | some numText =>
        simp only [hwc] at h ⊢
        cases hnum : parseU64Rust numText with
        | none =>
          simp only [hnum] at h
          exact Except.noConfusion h
        | some v =>
          simp only [hnum, Option.getD_some] at h ⊢
          cases hcache : files.cache.bind load_cache with
          | some idx =>
            simp only [hcache, Except.ok.injEq] at h
            subst h
            rfl
          | none =>
            simp only [hcache] at h
            cases hidx : files.idx with
            | none =>
              simp only [hidx] at h
              exact Except.noConfusion h
            | some idxBytes =>
              simp only [hidx] at h
              cases hpi : parse_index idxBytes with
              | ok idx =>
                simp only [hpi, Except.ok.injEq] at h
                subst h
                rfl
              | out =>
                simp only [hpi] at h
                exact Except.noConfusion h
              | crash =>
                simp only [hpi] at h
                exact Except.noConfusion h
  · intro hle n hn
    unfold select_random_word
    rw [dif_pos (by omega)]
    rfl

/-- C9 (amended) witness input: accurate metadata (wordcount=1 over a
one-record index). -/
def c9wFiles : DictFiles :=
  ⟨some "wordcount=1\n".data, some (serializeIdx [⟨[97], 1, 2⟩]), none, "p.dict".data⟩

/-- The dictionary that loading `c9wFiles` produces. -/
def c9wDict : Dictionary := ⟨[⟨[97], 1, 2⟩], "p.dict".data, 1, .noneTag⟩

/-- Witness for C9 (amended) at an accurate metadata file. -/
theorem c9_witness :
    (∃ ifoText, c9wFiles.ifo = some ifoText ∧
        c9wDict.wordcount = declaredWordcount ifoText) ∧
      (c9wDict.wordcount ≤ c9wDict.indices.length →
        ∀ n, n < c9wDict.wordcount →
          (select_random_word c9wDict n).isSome = true) :=
  c9_amended c9wFiles c9wDict (by rfl)

end Sozluk
